import Mathlib

/-!
Shallow embedding of the MyAlloc fixed-arena allocator (src/MyAlloc/src/main.c)
and verification of its specification claims.

The arena is modelled as the chunk chain only: each C `struct heapchunk_t`
living in the arena becomes a `Chunk` carrying its byte address (`addr`), its
payload size field (`size`, a uint32 in C) and its `inuse` flag.  The C `next`
pointer is the successor in the Lean list: the source maintains the chain in
arena-address order and the list order is exactly the `next` chain.

Machine-integer arithmetic is modelled on `Nat` with explicit `% 2 ^ 32`
wherever the 32-bit C computation can wrap (the `ALIGN` macro, the uint32
`size` accumulations in `heap_free`, the uint32 `avail` accumulator).
On an LP64 target `sizeof(struct heapchunk_t)` is 16 (4-byte `size`, 1-byte
`inuse`, 3 padding bytes, 8-byte `next`), so the header width is 16 bytes and
`(chunk + 1)` is `addr + 16`.
-/

namespace MyAlloc

/-- The C `ALIGNMENT` macro: the 8-byte alignment boundary. -/
def ALIGNMENT : Nat := 8

/-- Byte width of `struct heapchunk_t` on an LP64 target (`sizeof` = 16). -/
def hdrSize : Nat := 16

/-- Modulus of uint32 arithmetic. -/
def U32MOD : Nat := 2 ^ 32

/-- The C macro `ALIGN(size) = ((size + 7) & ~7)` evaluated in uint32
arithmetic.  For `x < 2 ^ 32`, `x & ~7` clears the low three bits, which on
`Nat` is `x / 8 * 8`; the `% U32MOD` is the uint32 wrap of `size + 7`. -/
def ALIGN (size : Nat) : Nat := (size + 7) % U32MOD / 8 * 8

/-- One `struct heapchunk_t` header embedded in the arena: its address in the
arena, its `size` field (payload byte count) and its `inuse` flag.  The `next`
pointer is the successor in the enclosing list. -/
structure Chunk where
  addr : Nat
  size : Nat
  inuse : Bool
deriving DecidableEq

/-- The C `struct heapinfo_t`: the chunk chain reachable from `start`, and the
cached `avail` field. -/
structure Heap where
  chunks : List Chunk
  avail : Nat
deriving DecidableEq

/-- `heap_init`: one free chunk at the base covering the whole span; its size
field receives `size - sizeof(struct heapchunk_t)` computed in unsigned
arithmetic and stored in a uint32, hence the `% U32MOD` wrap. -/
def heap_init (start : Nat) (size : Nat) : Heap :=
  { chunks := [⟨start, (size % U32MOD + U32MOD - hdrSize) % U32MOD, false⟩],
    avail := (size % U32MOD + U32MOD - hdrSize) % U32MOD }

/-- The loop of `heap_alloc` walking the `next` chain with the already aligned
request `asz`: the first chunk with `!inuse && size >= asz` is marked in use
and, when `size >= asz + sizeof(header) + ALIGNMENT`, split in two; the
returned address is `chunk + 1`, i.e. `addr + hdrSize`.  On a miss the walk
continues and the chain is untouched. -/
def allocGo (asz : Nat) : List Chunk → Option Nat × List Chunk
  | [] => (none, [])
  | c :: cs =>
    if c.inuse = false ∧ asz ≤ c.size then
      if asz + hdrSize + ALIGNMENT ≤ c.size then
        (some (c.addr + hdrSize),
          ⟨c.addr, asz, true⟩ ::
          ⟨c.addr + hdrSize + asz, c.size - asz - hdrSize, false⟩ :: cs)
      else
        (some (c.addr + hdrSize), ⟨c.addr, c.size, true⟩ :: cs)
    else
      let r := allocGo asz cs
      (r.1, c :: r.2)

/-- `heap_alloc`: align the request, walk the chain; `avail` is not touched. -/
def heap_alloc (h : Heap) (size : Nat) : Option Nat × Heap :=
  ((allocGo (ALIGN size) h.chunks).1,
   { chunks := (allocGo (ALIGN size) h.chunks).2, avail := h.avail })

/-- The single store `chunk->inuse = false` of `heap_free`, where `chunk` is
recovered as `ptr - sizeof(header)`: clear the `inuse` flag of the chunk whose
header lies at address `a` (the first such chunk; in any memory-meaningful
chain addresses are distinct). -/
def markFree (a : Nat) : List Chunk → List Chunk
  | [] => []
  | c :: cs =>
    if c.addr = a then ⟨c.addr, c.size, false⟩ :: cs
    else c :: markFree a cs

/-- The coalescing walk of `heap_free`: when `current` and `current->next` are
both free, `current->size += sizeof(header) + next->size` (a uint32 store,
hence the wrap) and `next` is spliced out; afterwards the loop executes
`current = current->next`, so it advances past the just-merged chunk and never
re-examines it against the new successor. -/
def coalesce : List Chunk → List Chunk
  | [] => []
  | [c] => [c]
  | c :: d :: rest =>
    if c.inuse = false ∧ d.inuse = false then
      ⟨c.addr, (c.size + hdrSize + d.size) % U32MOD, false⟩ :: coalesce rest
    else
      c :: coalesce (d :: rest)

/-- The `avail` recomputation loop of `heap_free`: fold the free chunks' sizes
into the uint32 accumulator `heap->avail`, wrapping at each addition. -/
def sumFreeGo (acc : Nat) : List Chunk → Nat
  | [] => acc
  | c :: cs => sumFreeGo (if c.inuse = false then (acc + c.size) % U32MOD else acc) cs

/-- `heap_free`: a null pointer is a no-op; otherwise clear the `inuse` flag of
the chunk at `ptr - sizeof(header)`, run the coalescing walk, and recompute
`avail` from scratch. -/
def heap_free (h : Heap) (p : Option Nat) : Heap :=
  match p with
  | none => h
  | some q =>
    { chunks := coalesce (markFree (q - hdrSize) h.chunks),
      avail := sumFreeGo 0 (coalesce (markFree (q - hdrSize) h.chunks)) }

/-- `heap_sizeof`: 0 for a null pointer; otherwise read the `size` field of the
header at `ptr - sizeof(header)`.  The memory read is modelled as looking up
the chunk whose payload starts at `q` in the chain describing the arena. -/
def heap_sizeof (chunks : List Chunk) (p : Option Nat) : Nat :=
  match p with
  | none => 0
  | some q =>
    match chunks.find? (fun c => c.addr + hdrSize == q) with
    | some c => c.size
    | none => 0

/-- Exact (unwrapped) sum of the payload sizes of the free chunks: the value
the spec says `avail` must cache. -/
def sumFree : List Chunk → Nat
  | [] => 0
  | c :: cs => (if c.inuse = false then c.size else 0) + sumFree cs

/-- Total number of arena bytes covered by the chain (each chunk owns its
header plus its payload). -/
def chunkBytes : List Chunk → Nat
  | [] => 0
  | c :: cs => hdrSize + c.size + chunkBytes cs

/-- The tiling invariant: every chunk's successor starts at the byte just past
this chunk's header plus payload. -/
def tiledb : List Chunk → Bool
  | c :: d :: rest => (d.addr == c.addr + hdrSize + c.size) && tiledb (d :: rest)
  | _ => true

/-- No two adjacent chunks in the chain are both free. -/
def noAdjFree : List Chunk → Bool
  | c :: d :: rest => (c.inuse || d.inuse) && noAdjFree (d :: rest)
  | _ => true

/-- No three consecutive chunks in the chain are all free. -/
def noTripleFree : List Chunk → Bool
  | c :: d :: e :: rest => (c.inuse || d.inuse || e.inuse) && noTripleFree (d :: e :: rest)
  | _ => true

/-- No four consecutive chunks in the chain are all free. -/
def noQuadFree : List Chunk → Bool
  | c :: d :: e :: f :: rest =>
      (c.inuse || d.inuse || e.inuse || f.inuse) && noQuadFree (d :: e :: f :: rest)
  | _ => true

/-! Concrete states reached by the demonstration scenario of the spec: a
4096-byte arena (at base address 0), then `allocate(128)`, `allocate(256)`,
`allocate(512)`, then various orders of freeing the three blocks. -/

/-- The freshly initialised 4096-byte arena. -/
def demo0 : Heap := heap_init 0 4096

/-- Result of `allocate(128)` on the fresh arena. -/
def d1 : Option Nat × Heap := heap_alloc demo0 128

/-- Result of the following `allocate(256)`. -/
def d2 : Option Nat × Heap := heap_alloc d1.2 256

/-- Result of the following `allocate(512)`. -/
def d3 : Option Nat × Heap := heap_alloc d2.2 512

/-- Heap after freeing the three blocks in allocation order (128, 256, 512). -/
def f123 : Heap := heap_free (heap_free (heap_free d3.2 d1.1) d2.1) d3.1

/-- Heap after freeing the three blocks in reverse order (512, 256, 128). -/
def f321 : Heap := heap_free (heap_free (heap_free d3.2 d3.1) d2.1) d1.1

/-- Heap after freeing the 128 block, then the 512 block: the 256 block is now
in use between two free chunks. -/
def g2 : Heap := heap_free (heap_free d3.2 d1.1) d3.1

/-- A small heap whose first chunk is unsuitable (in use) and whose second is
free with a 32-byte payload: a first-fit test state. -/
def wHeap : Heap := ⟨[⟨0, 8, true⟩, ⟨24, 32, false⟩], 40⟩

end MyAlloc

namespace MyAlloc

/-- A chunk that is a member of the chain and is free contributes its payload
to `sumFree`, so its size is bounded by the total free capacity. -/
theorem sumFree_member_le {l : List Chunk} {x : Chunk} (hx : x ∈ l)
    (hb : x.inuse = false) : x.size ≤ sumFree l := by
  induction l with
  | nil => cases hx
  | cons c cs ih =>
    rcases List.mem_cons.mp hx with rfl | h'
    · unfold sumFree
      rw [if_pos hb]
      omega
    · have h1 := ih h'
      unfold sumFree
      split <;> omega

/-- When the aligned request does not wrap (request at most `2 ^ 32 - 8`),
`ALIGN` rounds up, so it never decreases the request. -/
theorem le_ALIGN_of_le {n : Nat} (hn : n ≤ U32MOD - ALIGNMENT) : n ≤ ALIGN n := by
  have hM : U32MOD = 4294967296 := by decide
  have hA : ALIGNMENT = 8 := rfl
  have h1 : n + 7 < U32MOD := by omega
  unfold ALIGN
  rw [Nat.mod_eq_of_lt h1]
  have h2 := Nat.div_add_mod (n + 7) 8
  have h3 : (n + 7) % 8 < 8 := Nat.mod_lt _ (by omega)
  omega

/-- The walk of `heap_alloc` on a chain whose first suitable chunk is `c`:
every chunk of `pre` is rejected, `c` is selected, the returned address is
`c.addr + hdrSize`, and `c` is replaced by the split pair exactly when its
payload covers the request plus a header plus one alignment unit. -/
theorem allocGo_found (asz : Nat) (pre : List Chunk) (c : Chunk) (post : List Chunk)
    (hpre : ∀ x ∈ pre, x.inuse = true ∨ x.size < asz)
    (hfree : c.inuse = false) (hfit : asz ≤ c.size) :
    allocGo asz (pre ++ c :: post) =
      (some (c.addr + hdrSize),
        pre ++
          (if asz + hdrSize + ALIGNMENT ≤ c.size then
            [⟨c.addr, asz, true⟩, ⟨c.addr + hdrSize + asz, c.size - asz - hdrSize, false⟩]
          else [⟨c.addr, c.size, true⟩]) ++ post) := by
  induction pre with
  | nil =>
    simp only [List.nil_append, allocGo, if_pos (And.intro hfree hfit)]
    split <;> simp
  | cons x xs ih =>
    have hx := hpre x (List.mem_cons_self x xs)
    have hcond : ¬(x.inuse = false ∧ asz ≤ x.size) := by
      rintro ⟨h1, h2⟩
      rcases hx with h' | h'
      · rw [h1] at h'
        exact Bool.noConfusion h'
      · omega
    simp only [List.cons_append, allocGo, if_neg hcond, List.append_eq]
    rw [ih (fun y hy => hpre y (List.mem_cons_of_mem x hy))]

/-- The walk of `heap_alloc` on a chain with no suitable chunk: the result is
null and the chain is rebuilt unchanged. -/
theorem allocGo_none (asz : Nat) (l : List Chunk)
    (h : ∀ x ∈ l, x.inuse = true ∨ x.size < asz) :
    allocGo asz l = (none, l) := by
  induction l with
  | nil => rfl
  | cons x xs ih =>
    have hx := h x (List.mem_cons_self x xs)
    have hcond : ¬(x.inuse = false ∧ asz ≤ x.size) := by
      rintro ⟨h1, h2⟩
      rcases hx with h' | h'
      · rw [h1] at h'
        exact Bool.noConfusion h'
      · omega
    simp only [allocGo, if_neg hcond, ih (fun y hy => h y (List.mem_cons_of_mem x hy))]

/-- Inversion of a successful walk: the chain decomposes at the first suitable
chunk and the returned address is that chunk's header address plus a header. -/
theorem allocGo_some_inv (asz : Nat) (l : List Chunk) (p : Nat)
    (h : (allocGo asz l).1 = some p) :
    ∃ pre c post, l = pre ++ c :: post ∧
      (∀ x ∈ pre, x.inuse = true ∨ x.size < asz) ∧
      c.inuse = false ∧ asz ≤ c.size ∧ p = c.addr + hdrSize := by
  induction l with
  | nil => simp [allocGo] at h
  | cons x xs ih =>
    by_cases hc : x.inuse = false ∧ asz ≤ x.size
    · refine ⟨[], x, xs, rfl, by simp, hc.1, hc.2, ?_⟩
      simp only [allocGo, if_pos hc] at h
      split at h <;> · rw [Option.some_inj] at h; omega
    · simp only [allocGo, if_neg hc] at h
      obtain ⟨pre, c, post, hl, hpre, h1, h2, h3⟩ := ih h
      refine ⟨x :: pre, c, post, by rw [hl]; rfl, ?_, h1, h2, h3⟩
      intro y hy
      rcases List.mem_cons.mp hy with rfl | hy'
      · cases hb : y.inuse with
        | true => exact Or.inl rfl
        | false =>
          right
          by_contra hlt
          push_neg at hlt
          exact hc ⟨hb, hlt⟩
      · exact hpre y hy'

/-- Claim C2: for every heap state and requested size, `heap_alloc` selects
the first chunk in chain (arena-address) order that is free and whose size is
at least the 8-byte-aligned request — every earlier chunk being in use or too
small — and the returned address is that chunk's header address plus one
header width. -/
theorem heap_alloc_first_fit (h : Heap) (n : Nat) (pre : List Chunk) (c : Chunk)
    (post : List Chunk) (hch : h.chunks = pre ++ c :: post)
    (hpre : ∀ x ∈ pre, x.inuse = true ∨ x.size < ALIGN n)
    (hfree : c.inuse = false) (hfit : ALIGN n ≤ c.size) :
    (heap_alloc h n).1 = some (c.addr + hdrSize) := by
  show (allocGo (ALIGN n) h.chunks).1 = some (c.addr + hdrSize)
  rw [hch, allocGo_found _ _ _ _ hpre hfree hfit]

/-- Witness for claim C2 at a concrete heap: the first chunk is in use, the
second (header at 24, payload 32) is selected and payload address 40 is
returned. -/
theorem heap_alloc_first_fit_witness :
    wHeap.chunks = [⟨0, 8, true⟩] ++ ⟨24, 32, false⟩ :: [] ∧
    ALIGN 8 ≤ 32 ∧
    (heap_alloc wHeap 8).1 = some 40 :=
  ⟨rfl, by decide,
    heap_alloc_first_fit wHeap 8 [⟨0, 8, true⟩] ⟨24, 32, false⟩ [] rfl
      (by decide) rfl (by decide)⟩

/-- Claim C3: `heap_alloc` splits the selected chunk exactly when its payload
covers the aligned request plus one header width plus one alignment unit
(remainder `hdrSize + ALIGNMENT - 1 = 23`: no split; remainder
`hdrSize + ALIGNMENT = 24`: split); when splitting, the selected chunk's size
becomes exactly the aligned request and a new free chunk owning all remaining
bytes is spliced into the chain immediately after it. -/
theorem heap_alloc_split_threshold (h : Heap) (n : Nat) (pre : List Chunk)
    (c : Chunk) (post : List Chunk) (hch : h.chunks = pre ++ c :: post)
    (hpre : ∀ x ∈ pre, x.inuse = true ∨ x.size < ALIGN n)
    (hfree : c.inuse = false) (hfit : ALIGN n ≤ c.size) :
    (heap_alloc h n).2.chunks =
      pre ++
        (if ALIGN n + hdrSize + ALIGNMENT ≤ c.size then
          [⟨c.addr, ALIGN n, true⟩,
           ⟨c.addr + hdrSize + ALIGN n, c.size - ALIGN n - hdrSize, false⟩]
        else [⟨c.addr, c.size, true⟩]) ++ post := by
  show (allocGo (ALIGN n) h.chunks).2 = _
  rw [hch, allocGo_found _ _ _ _ hpre hfree hfit]

/-- Witness for claim C3 at a concrete heap: the selected chunk's payload (32)
exceeds the aligned request (8) by exactly `hdrSize + ALIGNMENT = 24`, so the
chunk is split into an in-use chunk of exactly 8 bytes and a new free chunk of
8 payload bytes at the new boundary. -/
theorem heap_alloc_split_threshold_witness :
    (heap_alloc wHeap 8).2.chunks = [⟨0, 8, true⟩, ⟨24, 8, true⟩, ⟨48, 8, false⟩] := by
  have h := heap_alloc_split_threshold wHeap 8 [⟨0, 8, true⟩] ⟨24, 32, false⟩ [] rfl
    (by decide) rfl (by decide)
  rw [h]
  decide

/-- Claim C7 as amended: for every heap state and every requested size small
enough that the uint32 `ALIGN` does not wrap (at most `2 ^ 32 - 8`), when the
request exceeds the current total free capacity `heap_alloc` returns the null
result and the heap — every chunk's size, in-use flag and link — is left
completely unchanged. -/
theorem heap_alloc_overcap_fails (h : Heap) (n : Nat)
    (hn : n ≤ U32MOD - ALIGNMENT) (hcap : sumFree h.chunks < n) :
    (heap_alloc h n).1 = none ∧ (heap_alloc h n).2 = h := by
  have halign := le_ALIGN_of_le hn
  have hall : ∀ x ∈ h.chunks, x.inuse = true ∨ x.size < ALIGN n := by
    intro x hx
    cases hb : x.inuse with
    | true => exact Or.inl rfl
    | false =>
      right
      have := sumFree_member_le hx hb
      omega
  constructor
  · show (allocGo (ALIGN n) h.chunks).1 = none
    rw [allocGo_none _ _ hall]
  · show ({ chunks := (allocGo (ALIGN n) h.chunks).2, avail := h.avail } : Heap) = h
    rw [allocGo_none _ _ hall]

/-- Witness for the amended claim C7: on the fresh 4096-byte arena (4080 free
bytes) a request of 8192 bytes fails and leaves the heap unchanged. -/
theorem heap_alloc_overcap_fails_witness :
    8192 ≤ U32MOD - ALIGNMENT ∧ sumFree demo0.chunks < 8192 ∧
    (heap_alloc demo0 8192).1 = none ∧ (heap_alloc demo0 8192).2 = demo0 :=
  ⟨by decide, by decide, (heap_alloc_overcap_fails demo0 8192 (by decide) (by decide)).1,
    (heap_alloc_overcap_fails demo0 8192 (by decide) (by decide)).2⟩

/-- Shedding the head of a tiled chain leaves a tiled chain. -/
theorem tiledb_cons_of (c : Chunk) (l : List Chunk) (h : tiledb (c :: l) = true) :
    tiledb l = true := by
  cases l with
  | nil => rfl
  | cons d t =>
    simp only [tiledb, Bool.and_eq_true] at h
    exact h.2

/-- The walk of `heap_alloc` never changes the address of the first chunk. -/
theorem allocGo_cons_shape (asz : Nat) (x : Chunk) (xs : List Chunk) :
    ∃ y ys, (allocGo asz (x :: xs)).2 = y :: ys ∧ y.addr = x.addr := by
  simp only [allocGo]
  split
  · split
    · exact ⟨_, _, rfl, rfl⟩
    · exact ⟨_, _, rfl, rfl⟩
  · exact ⟨_, _, rfl, rfl⟩

/-- The walk of `heap_alloc` preserves the tiling invariant: a split places
the new free chunk's header exactly at the end of the shrunk chunk's payload,
and the new chunk ends exactly where the original chunk ended. -/
theorem allocGo_tiled (asz : Nat) (l : List Chunk) (h : tiledb l = true) :
    tiledb (allocGo asz l).2 = true := by
  induction l with
  | nil => rfl
  | cons c cs ih =>
    by_cases hc : c.inuse = false ∧ asz ≤ c.size
    · by_cases hs : asz + hdrSize + ALIGNMENT ≤ c.size
      · simp only [allocGo, if_pos hc, if_pos hs]
        cases cs with
        | nil =>
          simp [tiledb]
        | cons z t =>
          simp only [tiledb, Bool.and_eq_true, beq_iff_eq] at h ⊢
          have hz : z.addr = c.addr + hdrSize + c.size := h.1
          have hA : ALIGNMENT = 8 := rfl
          have hH : hdrSize = 16 := rfl
          refine ⟨trivial, ?_, h.2⟩
          omega
      · simp only [allocGo, if_pos hc, if_neg hs]
        cases cs with
        | nil => rfl
        | cons z t =>
          simp only [tiledb, Bool.and_eq_true, beq_iff_eq] at h ⊢
          exact ⟨h.1, h.2⟩
    · simp only [allocGo, if_neg hc]
      have ht := ih (tiledb_cons_of c cs h)
      cases cs with
      | nil => rfl
      | cons x xs =>
        obtain ⟨y, ys, hsh, haddr⟩ := allocGo_cons_shape asz x xs
        rw [hsh] at ht ⊢
        simp only [tiledb, Bool.and_eq_true, beq_iff_eq] at h ⊢
        exact ⟨haddr.trans h.1, ht⟩

/-- Clearing an `inuse` flag changes neither addresses nor sizes, so it
preserves the tiling predicate exactly. -/
theorem markFree_cons_shape (a : Nat) (x : Chunk) (xs : List Chunk) :
    ∃ y ys, markFree a (x :: xs) = y :: ys ∧ y.addr = x.addr ∧ y.size = x.size := by
  simp only [markFree]
  split
  · exact ⟨_, _, rfl, rfl, rfl⟩
  · exact ⟨_, _, rfl, rfl, rfl⟩

/-- The marking step of `heap_free` leaves the tiling predicate unchanged. -/
theorem markFree_tiledb (a : Nat) (l : List Chunk) :
    tiledb (markFree a l) = tiledb l := by
  induction l with
  | nil => rfl
  | cons c cs ih =>
    by_cases hc : c.addr = a
    · simp only [markFree, if_pos hc]
      cases cs with
      | nil => rfl
      | cons d t => simp [tiledb]
    · simp only [markFree, if_neg hc]
      cases cs with
      | nil => rfl
      | cons d t =>
        obtain ⟨y, ys, hsh, haddr, _⟩ := markFree_cons_shape a d t
        rw [hsh]
        simp only [tiledb]
        rw [haddr, ← hsh, ih]

/-- The marking step of `heap_free` does not change the bytes covered. -/
theorem markFree_chunkBytes (a : Nat) (l : List Chunk) :
    chunkBytes (markFree a l) = chunkBytes l := by
  induction l with
  | nil => rfl
  | cons c cs ih =>
    by_cases hc : c.addr = a
    · simp only [markFree, if_pos hc, chunkBytes]
    · simp only [markFree, if_neg hc, chunkBytes]
      rw [ih]

/-- The coalescing walk never changes the address or the `inuse` flag of the
first chunk of the chain. -/
theorem coalesce_cons_shape (x : Chunk) (xs : List Chunk) :
    ∃ y ys, coalesce (x :: xs) = y :: ys ∧ y.addr = x.addr ∧ y.inuse = x.inuse := by
  cases xs with
  | nil => exact ⟨x, [], rfl, rfl, rfl⟩
  | cons d t =>
    by_cases hc : x.inuse = false ∧ d.inuse = false
    · refine ⟨⟨x.addr, (x.size + hdrSize + d.size) % U32MOD, false⟩, coalesce t, ?_,
        rfl, hc.1.symm⟩
      simp only [coalesce, if_pos hc]
    · refine ⟨x, coalesce (d :: t), ?_, rfl, rfl⟩
      simp only [coalesce, if_neg hc]

/-- The coalescing walk preserves the tiling invariant as long as the chain
covers fewer than `2 ^ 32` bytes (so the uint32 size addition of a merge never
wraps): a merged chunk ends exactly where its absorbed successor ended. -/
theorem coalesce_tiled : ∀ l : List Chunk, tiledb l = true → chunkBytes l < U32MOD →
    tiledb (coalesce l) = true
  | [], _, _ => rfl
  | [_], _, _ => rfl
  | c :: d :: rest, ht, hb => by
    by_cases hc : c.inuse = false ∧ d.inuse = false
    · simp only [coalesce, if_pos hc]
      have hbr : chunkBytes rest < U32MOD ∧ c.size + hdrSize + d.size < U32MOD := by
        simp only [chunkBytes] at hb
        constructor <;> omega
      have hmod : (c.size + hdrSize + d.size) % U32MOD = c.size + hdrSize + d.size :=
        Nat.mod_eq_of_lt hbr.2
      have htr : tiledb rest = true := tiledb_cons_of _ _ (tiledb_cons_of _ _ ht)
      have hrec := coalesce_tiled rest htr hbr.1
      cases rest with
      | nil => rfl
      | cons e t =>
        simp only [tiledb, Bool.and_eq_true, beq_iff_eq] at ht
        obtain ⟨y, ys, hsh, haddr, _⟩ := coalesce_cons_shape e t
        rw [hsh] at hrec ⊢
        simp only [tiledb, Bool.and_eq_true, beq_iff_eq]
        refine ⟨?_, hrec⟩
        rw [haddr, hmod]
        have h1 : e.addr = d.addr + hdrSize + d.size := ht.2.1
        have h2 : d.addr = c.addr + hdrSize + c.size := ht.1
        omega
    · simp only [coalesce, if_neg hc]
      have htr : tiledb (d :: rest) = true := tiledb_cons_of _ _ ht
      have hbr : chunkBytes (d :: rest) < U32MOD := by
        simp only [chunkBytes] at hb ⊢
        omega
      have hrec := coalesce_tiled (d :: rest) htr hbr
      obtain ⟨y, ys, hsh, haddr, _⟩ := coalesce_cons_shape d rest
      rw [hsh] at hrec ⊢
      simp only [tiledb, Bool.and_eq_true, beq_iff_eq] at ht ⊢
      exact ⟨haddr.trans ht.1, hrec⟩

/-- Claim C1: the tiling invariant holds throughout — `heap_init` establishes,
and every `heap_alloc` and `heap_free` preserves, that each chunk except the
last links to the byte immediately following its header plus payload.  For
`heap_free`, the chain must cover fewer than `2 ^ 32` bytes, which holds for
every chain built inside an arena whose uint32 span fits the `heap_init`
parameter: merges then never wrap the uint32 size field. -/
theorem tiling_invariant :
    (∀ start size, tiledb (heap_init start size).chunks = true) ∧
    (∀ (h : Heap) (n : Nat), tiledb h.chunks = true →
      tiledb (heap_alloc h n).2.chunks = true) ∧
    (∀ (h : Heap) (p : Option Nat), tiledb h.chunks = true →
      chunkBytes h.chunks < U32MOD → tiledb (heap_free h p).chunks = true) := by
  refine ⟨fun _ _ => rfl, fun h n ht => allocGo_tiled _ _ ht, fun h p ht hb => ?_⟩
  cases p with
  | none => exact ht
  | some q =>
    show tiledb (coalesce (markFree (q - hdrSize) h.chunks)) = true
    refine coalesce_tiled _ ?_ ?_
    · rw [markFree_tiledb]
      exact ht
    · rw [markFree_chunkBytes]
      exact hb

/-- Witness for claim C1: the demo heap after three allocations is tiled,
covers 4096 bytes, and stays tiled through a free. -/
theorem tiling_invariant_witness :
    tiledb (heap_init 0 4096).chunks = true ∧
    tiledb d3.2.chunks = true ∧ chunkBytes d3.2.chunks < U32MOD ∧
    tiledb (heap_free d3.2 d1.1).chunks = true :=
  ⟨tiling_invariant.1 0 4096, by decide, by decide,
    tiling_invariant.2.2 d3.2 d1.1 (by decide) (by decide)⟩

/-- In a tiled chain, each successor starts at least one header width later,
so addresses strictly increase along the chain. -/
theorem tiledb_head_lt : ∀ (l : List Chunk) (x : Chunk), tiledb (x :: l) = true →
    ∀ y ∈ l, x.addr < y.addr
  | [], _, _, y, hy => absurd hy (List.not_mem_nil y)
  | z :: t, x, h, y, hy => by
    simp only [tiledb, Bool.and_eq_true, beq_iff_eq] at h
    have hH : hdrSize = 16 := rfl
    rcases List.mem_cons.mp hy with rfl | hy'
    · omega
    · have := tiledb_head_lt t z h.2 y hy'
      omega

/-- In a tiled chain decomposed around a middle chunk, every earlier chunk has
a strictly smaller address. -/
theorem tiledb_mid_lt (pre : List Chunk) (c : Chunk) (post : List Chunk)
    (h : tiledb (pre ++ c :: post) = true) : ∀ x ∈ pre, x.addr < c.addr := by
  induction pre with
  | nil => intro x hx; cases hx
  | cons z zs ih =>
    intro x hx
    rcases List.mem_cons.mp hx with rfl | hx'
    · exact tiledb_head_lt _ _ h c (by simp)
    · exact ih (tiledb_cons_of _ _ h) x hx'

/-- `find?` skips a block of elements on which the predicate is false. -/
theorem find?_skip_of_false {p : Chunk → Bool} {pre l2 : List Chunk}
    (h : ∀ x ∈ pre, p x = false) : List.find? p (pre ++ l2) = List.find? p l2 := by
  induction pre with
  | nil => rfl
  | cons x xs ih =>
    rw [List.cons_append, List.find?]
    rw [h x (List.mem_cons_self x xs)]
    exact ih (fun y hy => h y (List.mem_cons_of_mem x hy))

/-- Claim C8 (round-trip): on a tiled heap, if `heap_alloc n` succeeds and
returns address `p`, then `heap_sizeof` applied to `p` in the resulting heap
returns at least `ALIGN n`, the request rounded up to a multiple of 8. -/
theorem alloc_sizeof_roundtrip (h : Heap) (n p : Nat)
    (ht : tiledb h.chunks = true) (hs : (heap_alloc h n).1 = some p) :
    ALIGN n ≤ heap_sizeof (heap_alloc h n).2.chunks (some p) := by
  have hs' : (allocGo (ALIGN n) h.chunks).1 = some p := hs
  obtain ⟨pre, c, post, hl, hpre, hfree, hfit, hp⟩ := allocGo_some_inv _ _ _ hs'
  have hres : (heap_alloc h n).2.chunks =
      pre ++
        (if ALIGN n + hdrSize + ALIGNMENT ≤ c.size then
          [⟨c.addr, ALIGN n, true⟩,
           ⟨c.addr + hdrSize + ALIGN n, c.size - ALIGN n - hdrSize, false⟩]
        else [⟨c.addr, c.size, true⟩]) ++ post := by
    show (allocGo (ALIGN n) h.chunks).2 = _
    rw [hl, allocGo_found _ _ _ _ hpre hfree hfit]
  rw [hres]
  have hlt : ∀ x ∈ pre, x.addr < c.addr := tiledb_mid_lt pre c post (hl ▸ ht)
  have hskip : ∀ x ∈ pre, (x.addr + hdrSize == p) = false := by
    intro x hx
    have := hlt x hx
    rw [hp]
    simp only [beq_eq_false_iff_ne, ne_eq]
    omega
  show ALIGN n ≤
    (match List.find? (fun x => x.addr + hdrSize == p)
        ((pre ++
          (if ALIGN n + hdrSize + ALIGNMENT ≤ c.size then
            [⟨c.addr, ALIGN n, true⟩,
             ⟨c.addr + hdrSize + ALIGN n, c.size - ALIGN n - hdrSize, false⟩]
          else [⟨c.addr, c.size, true⟩])) ++ post) with
      | some x => x.size
      | none => 0)
  rw [List.append_assoc, find?_skip_of_false hskip]
  by_cases hsplit : ALIGN n + hdrSize + ALIGNMENT ≤ c.size
  · rw [if_pos hsplit, hp]
    rw [List.cons_append, List.find?_cons_of_pos _ (by simp)]
  · rw [if_neg hsplit, hp]
    rw [List.cons_append, List.find?_cons_of_pos _ (by simp)]
    exact hfit

/-- Witness for claim C8: the fresh arena is tiled, `allocate(128)` returns
address 16, and querying that address yields at least `ALIGN 128 = 128`. -/
theorem alloc_sizeof_roundtrip_witness :
    tiledb demo0.chunks = true ∧ (heap_alloc demo0 128).1 = some 16 ∧
    ALIGN 128 ≤ heap_sizeof (heap_alloc demo0 128).2.chunks (some 16) :=
  ⟨by decide, by decide, alloc_sizeof_roundtrip demo0 128 16 (by decide) (by decide)⟩

/-- Shedding the head of a chain with no adjacent free pair leaves a chain
with no adjacent free pair. -/
theorem noAdjFree_cons_of (c : Chunk) (l : List Chunk)
    (h : noAdjFree (c :: l) = true) : noAdjFree l = true := by
  cases l with
  | nil => rfl
  | cons d t =>
    simp only [noAdjFree, Bool.and_eq_true] at h
    exact h.2

/-- Shedding the head of a chain with no free quadruple leaves a chain with no
free quadruple. -/
theorem noQuadFree_cons_of (c : Chunk) (l : List Chunk)
    (h : noQuadFree (c :: l) = true) : noQuadFree l = true := by
  cases l with
  | nil => rfl
  | cons d t =>
    cases t with
    | nil => rfl
    | cons e t2 =>
      cases t2 with
      | nil => rfl
      | cons f t3 =>
        simp only [noQuadFree, Bool.and_eq_true] at h
        exact h.2

/-- A chain with no two adjacent free chunks has no three adjacent ones. -/
theorem noAdjFree_noTriple : ∀ l : List Chunk, noAdjFree l = true →
    noTripleFree l = true
  | [], _ => rfl
  | [_], _ => rfl
  | [_, _], _ => rfl
  | a :: b :: c :: t, h => by
    simp only [noAdjFree, Bool.and_eq_true, Bool.or_eq_true] at h
    have hrec := noAdjFree_noTriple (b :: c :: t)
      (by simp only [noAdjFree, Bool.and_eq_true, Bool.or_eq_true]; exact h.2)
    simp only [noTripleFree, Bool.and_eq_true, Bool.or_eq_true]
    exact ⟨by tauto, hrec⟩

/-- A chain with no two adjacent free chunks has no four adjacent ones. -/
theorem noAdjFree_noQuad : ∀ l : List Chunk, noAdjFree l = true →
    noQuadFree l = true
  | [], _ => rfl
  | [_], _ => rfl
  | [_, _], _ => rfl
  | [_, _, _], _ => rfl
  | a :: b :: c :: d :: t, h => by
    simp only [noAdjFree, Bool.and_eq_true, Bool.or_eq_true] at h
    have hrec := noAdjFree_noQuad (b :: c :: d :: t)
      (by simp only [noAdjFree, Bool.and_eq_true, Bool.or_eq_true]; exact h.2)
    simp only [noQuadFree, Bool.and_eq_true, Bool.or_eq_true]
    exact ⟨by tauto, hrec⟩

/-- Prepending one arbitrary chunk to a chain with no adjacent free pair
cannot create a free quadruple: any four consecutive chunks contain two
consecutive chunks of the original chain. -/
theorem noQuad_cons_of_noAdj (x : Chunk) (l : List Chunk)
    (h : noAdjFree l = true) : noQuadFree (x :: l) = true := by
  cases l with
  | nil => rfl
  | cons b t =>
    cases t with
    | nil => rfl
    | cons c t2 =>
      cases t2 with
      | nil => rfl
      | cons d t3 =>
        simp only [noAdjFree, Bool.and_eq_true, Bool.or_eq_true] at h
        simp only [noQuadFree, Bool.and_eq_true, Bool.or_eq_true]
        refine ⟨by tauto, ?_⟩
        have := noAdjFree_noQuad (b :: c :: d :: t3)
          (by simp only [noAdjFree, Bool.and_eq_true, Bool.or_eq_true]; tauto)
        simpa only [noQuadFree, Bool.and_eq_true, Bool.or_eq_true] using this

/-- Prepending two arbitrary chunks to a chain with no adjacent free pair
cannot create a free quadruple. -/
theorem noQuad_cons_cons_of_noAdj (x y : Chunk) (l : List Chunk)
    (h : noAdjFree l = true) : noQuadFree (x :: y :: l) = true := by
  cases l with
  | nil => rfl
  | cons c t =>
    cases t with
    | nil => rfl
    | cons d t2 =>
      simp only [noAdjFree, Bool.and_eq_true, Bool.or_eq_true] at h
      simp only [noQuadFree, Bool.and_eq_true, Bool.or_eq_true]
      refine ⟨by tauto, ?_⟩
      have := noQuad_cons_of_noAdj y (c :: d :: t2)
        (by simp only [noAdjFree, Bool.and_eq_true, Bool.or_eq_true]; tauto)
      exact this

/-- The marking step of `heap_free` on a chain with no two adjacent free
chunks produces a chain with no four consecutive free chunks: at most one
`inuse` flag is cleared, so free runs grow to length at most three. -/
theorem markFree_noQuad : ∀ (a : Nat) (l : List Chunk), noAdjFree l = true →
    noQuadFree (markFree a l) = true
  | _, [], _ => rfl
  | a, c :: cs, h => by
    by_cases hc : c.addr = a
    · simp only [markFree, if_pos hc]
      exact noQuad_cons_of_noAdj _ _ (noAdjFree_cons_of c cs h)
    · simp only [markFree, if_neg hc]
      cases cs with
      | nil => rfl
      | cons d t =>
        by_cases hd : d.addr = a
        · simp only [markFree, if_pos hd]
          exact noQuad_cons_cons_of_noAdj _ _ _
            (noAdjFree_cons_of d t (noAdjFree_cons_of c (d :: t) h))
        · have hcd : (c.inuse || d.inuse) = true := by
            simp only [noAdjFree, Bool.and_eq_true] at h
            exact h.1
          have hrec := markFree_noQuad a (d :: t) (noAdjFree_cons_of c (d :: t) h)
          rw [show markFree a (d :: t) = d :: markFree a t from by
            simp only [markFree, if_neg hd]] at hrec
          simp only [markFree, if_neg hd]
          cases hM : markFree a t with
          | nil => rfl
          | cons m0 M1 =>
            cases M1 with
            | nil => rfl
            | cons m1 M2 =>
              rw [hM] at hrec
              simp only [noQuadFree, Bool.and_eq_true, Bool.or_eq_true]
              refine ⟨?_, by simpa only [noQuadFree, Bool.and_eq_true,
                Bool.or_eq_true] using hrec⟩
              simp only [Bool.or_eq_true] at hcd
              tauto

/-- The coalescing walk on a chain with no four consecutive free chunks
produces a chain with no three consecutive free chunks: each examined free
pair is merged into one free chunk and the walk advances past it. -/
theorem coalesce_noTriple : ∀ l : List Chunk, noQuadFree l = true →
    noTripleFree (coalesce l) = true
  | [], _ => rfl
  | [_], _ => rfl
  | c :: d :: rest, h => by
    by_cases hcd : c.inuse = false ∧ d.inuse = false
    · simp only [coalesce, if_pos hcd]
      cases rest with
      | nil => rfl
      | cons e t =>
        cases t with
        | nil => simp [coalesce, noTripleFree]
        | cons f t2 =>
          have hef : e.inuse = true ∨ f.inuse = true := by
            simp only [noQuadFree, Bool.and_eq_true, Bool.or_eq_true] at h
            rcases h.1 with ((h' | h') | h') | h'
            · rw [hcd.1] at h'; exact Bool.noConfusion h'
            · rw [hcd.2] at h'; exact Bool.noConfusion h'
            · exact Or.inl h'
            · exact Or.inr h'
          have hne : ¬(e.inuse = false ∧ f.inuse = false) := by
            rintro ⟨h1, h2⟩
            rcases hef with h' | h'
            · rw [h1] at h'; exact Bool.noConfusion h'
            · rw [h2] at h'; exact Bool.noConfusion h'
          have hrec := coalesce_noTriple (e :: f :: t2)
            (noQuadFree_cons_of d _ (noQuadFree_cons_of c _ h))
          rw [show coalesce (e :: f :: t2) = e :: coalesce (f :: t2) from by
            simp only [coalesce, if_neg hne]] at hrec ⊢
          obtain ⟨w, ws, hsh, _, hwin⟩ := coalesce_cons_shape f t2
          rw [hsh] at hrec ⊢
          simp only [noTripleFree, Bool.and_eq_true, Bool.or_eq_true]
          refine ⟨?_, by simpa only [noTripleFree, Bool.and_eq_true,
            Bool.or_eq_true] using hrec⟩
          rcases hef with h' | h'
          · exact Or.inl (Or.inr h')
          · exact Or.inr (hwin.trans h')
    · simp only [coalesce, if_neg hcd]
      have hrec := coalesce_noTriple (d :: rest) (noQuadFree_cons_of c _ h)
      obtain ⟨w, ws, hsh, _, hwin⟩ := coalesce_cons_shape d rest
      rw [hsh] at hrec ⊢
      cases ws with
      | nil => rfl
      | cons w2 ws2 =>
        simp only [noTripleFree, Bool.and_eq_true, Bool.or_eq_true]
        refine ⟨?_, by simpa only [noTripleFree, Bool.and_eq_true,
          Bool.or_eq_true] using hrec⟩
        by_cases hcu : c.inuse = true
        · exact Or.inl (Or.inl hcu)
        · have hcf : c.inuse = false := by
            cases hb : c.inuse with
            | true => exact absurd hb hcu
            | false => rfl
          have hdu : d.inuse = true := by
            cases hb : d.inuse with
            | true => rfl
            | false => exact absurd ⟨hcf, hb⟩ hcd
          exact Or.inl (Or.inr (hwin.trans hdu))

/-- Claim C4 as amended: after any `heap_free` on a heap with no two adjacent
free chunks, no three consecutive chunks are all free — but two adjacent free
chunks may remain (the single walk merges a free chunk with at most its
immediate successor and then advances past the merged chunk, so freeing a
chunk whose both neighbours are free leaves one adjacent free pair; see the
counterexample). -/
theorem heap_free_noTriple (h : Heap) (p : Option Nat)
    (hA : noAdjFree h.chunks = true) :
    noTripleFree (heap_free h p).chunks = true := by
  cases p with
  | none => exact noAdjFree_noTriple _ hA
  | some q =>
    show noTripleFree (coalesce (markFree (q - hdrSize) h.chunks)) = true
    exact coalesce_noTriple _ (markFree_noQuad _ _ hA)

/-- Witness for the amended claim C4: the demo heap after three allocations
has no adjacent free pair, and freeing the first block leaves no free
triple. -/
theorem heap_free_noTriple_witness :
    noAdjFree d3.2.chunks = true ∧
    noTripleFree (heap_free d3.2 d1.1).chunks = true :=
  ⟨by decide, heap_free_noTriple d3.2 d1.1 (by decide)⟩

/-- The uint32 accumulation loop recomputing `avail` equals the exact sum of
free payload sizes reduced modulo `2 ^ 32`. -/
theorem sumFreeGo_eq : ∀ (l : List Chunk) (acc : Nat), acc < U32MOD →
    sumFreeGo acc l = (acc + sumFree l) % U32MOD
  | [], acc, h => by
    simp only [sumFreeGo, sumFree, Nat.add_zero]
    exact (Nat.mod_eq_of_lt h).symm
  | c :: cs, acc, h => by
    have hpos : 0 < U32MOD := by decide
    simp only [sumFreeGo, sumFree]
    by_cases hc : c.inuse = false
    · rw [if_pos hc, if_pos hc, sumFreeGo_eq cs _ (Nat.mod_lt _ hpos), Nat.mod_add_mod]
      have : acc + c.size + sumFree cs = acc + (c.size + sumFree cs) := by omega
      rw [this]
    · rw [if_neg hc, if_neg hc, sumFreeGo_eq cs acc h]
      have : acc + (0 + sumFree cs) = acc + sumFree cs := by omega
      rw [this]

/-- Claim C5 as amended: after any `heap_free` with a non-null pointer, the
heap's `avail` field equals the exact sum of payload sizes over all chunks
currently marked free in the chain, provided that sum fits the uint32
accumulator (as it does for every chain inside a uint32-sized arena); a
null-pointer free returns early and leaves a possibly stale `avail`
untouched (see the counterexample). -/
theorem heap_free_avail_recompute (h : Heap) (q : Nat)
    (hb : sumFree (heap_free h (some q)).chunks < U32MOD) :
    (heap_free h (some q)).avail = sumFree (heap_free h (some q)).chunks := by
  show sumFreeGo 0 (coalesce (markFree (q - hdrSize) h.chunks)) = _
  rw [sumFreeGo_eq _ 0 (by decide), Nat.zero_add]
  exact Nat.mod_eq_of_lt hb

/-- Witness for the amended claim C5: freeing the 128 block of the demo heap
recomputes `avail` to the exact free-payload sum. -/
theorem heap_free_avail_recompute_witness :
    sumFree (heap_free d3.2 (some 16)).chunks < U32MOD ∧
    (heap_free d3.2 (some 16)).avail = sumFree (heap_free d3.2 (some 16)).chunks :=
  ⟨by decide, heap_free_avail_recompute d3.2 16 (by decide)⟩

/-- Claim C9: for every heap state and every requested size, `heap_alloc`
leaves the heap's `avail` field unchanged, whether it succeeds (with or
without splitting) or fails; only `heap_free` updates `avail`. -/
theorem heap_alloc_avail_frame (h : Heap) (n : Nat) :
    (heap_alloc h n).2.avail = h.avail := rfl

/-- Claim C10: the 32-bit alignment computation wraps: `ALIGN(0xFFFFFFFF) = 0`
modulo `2 ^ 32`, so on the fresh 4096-byte arena (which has a free chunk)
`heap_alloc` with requested size `0xFFFFFFFF` returns a non-null address whose
chunk payload (0 bytes) is far smaller than the requested size, instead of
reporting out-of-memory. -/
theorem align_wrap_small_alloc :
    ALIGN 4294967295 = 0 ∧
    (heap_alloc (heap_init 0 4096) 4294967295).1 = some 16 ∧
    heap_sizeof (heap_alloc (heap_init 0 4096) 4294967295).2.chunks (some 16) = 0 ∧
    heap_sizeof (heap_alloc (heap_init 0 4096) 4294967295).2.chunks (some 16)
      < 4294967295 := by decide

/-- Counterexample to claim C7 as stated: on the fresh 4096-byte arena the
total free capacity is 4080 bytes, and the requested size 4294967295 exceeds
it, yet `heap_alloc` returns a non-null result and mutates the chunk chain
(the uint32 `ALIGN` wraps the request to 0). -/
theorem alloc_overcap_wrap_cex :
    sumFree (heap_init 0 4096).chunks < 4294967295 ∧
    (heap_alloc (heap_init 0 4096) 4294967295).1 ≠ none ∧
    (heap_alloc (heap_init 0 4096) 4294967295).2.chunks ≠ (heap_init 0 4096).chunks := by
  decide

/-- Counterexample to claim C5 as stated: `heap_free` with a null pointer
returns before recomputing `avail`, and `heap_alloc` never updates `avail`, so
after `allocate(128)` on the fresh arena followed by `free(NULL)` the cached
`avail` (4080) differs from the sum of free payload sizes (3936). -/
theorem free_null_stale_avail_cex :
    (heap_free (heap_alloc (heap_init 0 4096) 128).2 none).avail ≠
      sumFree (heap_free (heap_alloc (heap_init 0 4096) 128).2 none).chunks := by
  decide

/-- Counterexample to claim C4 as stated: after freeing the 128 block and the
512 block, freeing the 256 block (payload address 160) marks a chunk free
between two free neighbours; the single coalescing walk merges the left pair
and then advances past the merged chunk, leaving two adjacent free chunks
(sizes 400 and 3664) in the chain after the free. -/
theorem heap_free_adjacent_free_cex :
    noAdjFree (heap_free g2 d2.1).chunks = false := by decide

/-- Counterexample to claim C6 as stated: the three allocations succeed at
strictly increasing addresses, but after freeing them in allocation order
(128 first, then 256, then 512) the chain holds two uncoalesced free chunks of
928 and 3136 bytes, and a single allocation of 4096 − 3×16 − slack bytes fails
both for slack 0 (4048) and slack 8 (4040). -/
theorem coalesce_order_cex :
    d1.1 = some 16 ∧ d2.1 = some 160 ∧ d3.1 = some 432 ∧
    (heap_alloc f123 4048).1 = none ∧ (heap_alloc f123 4040).1 = none := by decide

/-- Claim C6 as amended: in the 4096-byte arena, `allocate(128)`,
`allocate(256)`, `allocate(512)` all succeed and return strictly increasing,
non-overlapping addresses (16, 160, 432); freeing the three blocks in reverse
allocation order (512, then 256, then 128) coalesces the arena back to a
single 4080-byte free chunk, and a subsequent single allocation of
4096 − 3×16 = 4048 bytes succeeds — while freeing in allocation order does not
restore this capacity (see the counterexample). -/
theorem demo_reverse_free_coalesce :
    d1.1 = some 16 ∧ d2.1 = some 160 ∧ d3.1 = some 432 ∧
    16 + 128 ≤ 160 ∧ 160 + 256 ≤ 432 ∧
    f321.chunks = [⟨0, 4080, false⟩] ∧
    (heap_alloc f321 4048).1 = some 16 := by decide

end MyAlloc
